import Mathlib

/-!
Shallow embedding of the contrastive label proximity analysis from
`worked_examples/geospatial/workshops_2024/explore_text_on_maps.ipynb`.

The notebook's core logic (cells 13-17) is:

* a partition loop over building-patch predictions ("anchors") that
  collects, for each anchor, the strings of all spotted-text detections
  whose centroid lies within `distance` of the anchor's centroid, and
  extends the global list `adjacent_text` when the anchor's
  `predicted_label` equals `target_label`, else the list `other_text`;
* `Counter([i.lower() for i in labels])` frequency tables and
  probability tables `{k: v / sum(freq.values()) for k, v in freq.items()}`;
* `proportional_difference = sorted({w: a.get(w, 0) - b.get(w, 0) for w in
  b.keys()}.items(), key=lambda x: x[1], reverse=True)`.

Coordinates and probabilities are modelled over `ℚ`.  The geopandas
comparison `dist(p, q) <= d` on Euclidean distance is embedded as
`0 ≤ d ∧ sqDist p q ≤ d * d`, which is equivalent for real Euclidean
distance since `dist ≥ 0` (this avoids irrational square roots while
keeping the predicate decidable).  Python dictionaries are association
lists in insertion order; `Counter` preserves first-occurrence order.
Python's `sorted(..., reverse=True)` is a stable descending sort, embedded
as a stable insertion sort on the value component.
-/

/-- A planar point (the notebook works with centroids reprojected to
EPSG:27700, a meter-based planar CRS). -/
structure Point where
  x : ℚ
  y : ℚ
deriving DecidableEq, Repr

/-- A building-patch prediction row: its centroid and its `predicted_label`
field. -/
structure Anchor where
  centroid : Point
  predicted_label : String
deriving DecidableEq, Repr

/-- A spotted-text row: its centroid and its `text` field. -/
structure TextDetection where
  centroid : Point
  text : String
deriving DecidableEq, Repr

/-- Squared Euclidean distance between two points. -/
def sqDist (p q : Point) : ℚ :=
  (p.x - q.x) * (p.x - q.x) + (p.y - q.y) * (p.y - q.y)

/-- The notebook's `distance(row.centroid) <= distance` test: Euclidean
distance from `p` to `q` is at most `d`.  For real Euclidean distance this
holds iff `0 ≤ d` and the squared distance is at most `d * d`. -/
def withinDistance (p q : Point) (d : ℚ) : Bool :=
  decide (0 ≤ d) && decide (sqDist p q ≤ d * d)

/-- The notebook's
`spotted_text[spotted_text.distance(row.centroid) <= distance].text.tolist()`:
the text strings of all detections within `d` of the point `c`. -/
def textsWithin (texts : List TextDetection) (c : Point) (d : ℚ) : List String :=
  (texts.filter (fun t => withinDistance t.centroid c d)).map TextDetection.text

/-- The state threaded through the notebook's partition loop: the two input
collections (`predictions` and `spotted_text`, which the loop only reads)
and the two accumulator lists `adjacent_text` and `other_text`. -/
structure PartitionState where
  anchors : List Anchor
  texts : List TextDetection
  adjacent_text : List String
  other_text : List String
deriving DecidableEq, Repr

/-- One iteration of the notebook loop `for i, row in predictions.iterrows()`:
collect the labels within `d` of `row.centroid`, then extend `adjacent_text`
when `row['predicted_label'] == target_label`, else extend `other_text`. -/
def partitionStep (target_label : String) (d : ℚ) (s : PartitionState)
    (row : Anchor) : PartitionState :=
  let labels := textsWithin s.texts row.centroid d
  if row.predicted_label == target_label then
    { s with adjacent_text := s.adjacent_text ++ labels }
  else
    { s with other_text := s.other_text ++ labels }

/-- Run the whole partition loop from empty accumulators. -/
def runPartition (anchors : List Anchor) (texts : List TextDetection)
    (target_label : String) (d : ℚ) : PartitionState :=
  anchors.foldl (partitionStep target_label d)
    { anchors := anchors, texts := texts, adjacent_text := [], other_text := [] }

/-- The partition routine of spec §4.1: the pair
`(adjacent_text, other_text)` produced by the notebook loop. -/
def partition (anchors : List Anchor) (texts : List TextDetection)
    (target_label : String) (d : ℚ) : List String × List String :=
  let s := runPartition anchors texts target_label d
  (s.adjacent_text, s.other_text)

/-- Python's `str.lower()`, embedded as character-wise lowercasing over the
string's characters (`Char.toLower` performs the ASCII case folding that the
notebook's map text exercises). -/
def strLower (s : String) : String := ⟨s.data.map Char.toLower⟩

/-- Look up a key in an association list with `Nat` values, defaulting to 0
(Python `Counter`'s behaviour on missing keys). -/
def lookupNat : List (String × Nat) → String → Nat
  | [], _ => 0
  | kv :: rest, k => if kv.1 == k then kv.2 else lookupNat rest k

/-- Add one occurrence of `k` to a counter association list, preserving
insertion order (new keys are appended at the end, as a Python dict does). -/
def bump (m : List (String × Nat)) (k : String) : List (String × Nat) :=
  match m with
  | [] => [(k, 1)]
  | kv :: rest => if kv.1 == k then (kv.1, kv.2 + 1) :: rest else kv :: bump rest k

/-- Python's `Counter(labels)`: occurrence counts keyed in order of first
appearance. -/
def counter (labels : List String) : List (String × Nat) :=
  labels.foldl bump []

/-- Total count, `sum(freq.values())`. -/
def totalCount (freq : List (String × Nat)) : Nat :=
  (freq.map Prod.snd).sum

/-- Errors the embedded Python code could raise. -/
inductive PyError where
  | ZeroDivisionError
deriving DecidableEq, Repr

/-- Cells 14-15 of the notebook, with the division embedded fallibly exactly
where Python would evaluate it:
`freq = Counter([i.lower() for i in labels])` followed by
`prob = {k: v / sum(freq.values()) for k, v in freq.items()}`.  The division
`v / sum(...)` is executed once per entry of `freq`; it raises
`ZeroDivisionError` only if it is actually executed with a zero total. -/
def build_tables_py (labels : List String) :
    Except PyError (List (String × Nat) × List (String × ℚ)) := do
  let freq := counter (labels.map strLower)
  let prob ← freq.mapM (fun kv =>
    if totalCount freq = 0 then Except.error PyError.ZeroDivisionError
    else Except.ok (kv.1, (kv.2 : ℚ) / (totalCount freq : ℚ)))
  return (freq, prob)

/-- The same tables as a total function (in `ℚ`, division by zero is 0, but
it is never reached: the probability map ranges over `freq`'s entries, which
all exist only when the total is positive, except for the empty case where
the map is empty). -/
def build_tables (labels : List String) :
    List (String × Nat) × List (String × ℚ) :=
  let freq := counter (labels.map strLower)
  (freq, freq.map (fun kv => (kv.1, (kv.2 : ℚ) / (totalCount freq : ℚ))))

/-- Look up a key in a probability table, defaulting to 0
(Python's `prob.get(w, 0)`). -/
def lookupProb : List (String × ℚ) → String → ℚ
  | [], _ => 0
  | kv :: rest, w => if kv.1 == w then kv.2 else lookupProb rest w

/-- The state threaded through the dict comprehension of cell 17: the two
probability tables (read-only) and the accumulated difference entries. -/
structure RankState where
  prob_a : List (String × ℚ)
  prob_b : List (String × ℚ)
  diffs : List (String × ℚ)
deriving DecidableEq, Repr

/-- One step of `{w: prob_a.get(w, 0) - prob_b.get(w, 0) for w in
prob_b.keys()}`: append the entry for the next key `w` of `prob_b`. -/
def rankStep (s : RankState) (kv : String × ℚ) : RankState :=
  { s with
    diffs := s.diffs ++ [(kv.1, lookupProb s.prob_a kv.1 - lookupProb s.prob_b kv.1)] }

/-- Run the dict comprehension over all keys of `prob_b`. -/
def runRankDiffs (prob_a prob_b : List (String × ℚ)) : RankState :=
  prob_b.foldl rankStep { prob_a := prob_a, prob_b := prob_b, diffs := [] }

/-- Insert one entry into a list sorted descending by value, after every
entry with a strictly larger value and before every entry whose value is at
most the inserted one.  Together with `sortDesc` this is a stable descending
sort, the behaviour Python guarantees for
`sorted(..., key=lambda x: x[1], reverse=True)`. -/
def insertTerm (p : String × ℚ) : List (String × ℚ) → List (String × ℚ)
  | [] => [p]
  | q :: rest => if p.2 < q.2 then q :: insertTerm p rest else p :: q :: rest

/-- Stable descending insertion sort on the value component. -/
def sortDesc : List (String × ℚ) → List (String × ℚ)
  | [] => []
  | p :: rest => insertTerm p (sortDesc rest)

/-- Cell 17 of the notebook:
`sorted({w: prob_a.get(w, 0) - prob_b.get(w, 0) for w in prob_b.keys()}.items(),
key=lambda x: x[1], reverse=True)`. -/
def rank_difference (prob_a prob_b : List (String × ℚ)) : List (String × ℚ) :=
  sortDesc (runRankDiffs prob_a prob_b).diffs

/-! ### Helper lemmas about the partition loop -/

/-- A partition step never touches the `anchors` field. -/
theorem partitionStep_anchors (tl : String) (d : ℚ) (s : PartitionState)
    (row : Anchor) : (partitionStep tl d s row).anchors = s.anchors := by
  unfold partitionStep
  by_cases h : row.predicted_label == tl <;> simp [h]

/-- A partition step never touches the `texts` field. -/
theorem partitionStep_texts (tl : String) (d : ℚ) (s : PartitionState)
    (row : Anchor) : (partitionStep tl d s row).texts = s.texts := by
  unfold partitionStep
  by_cases h : row.predicted_label == tl <;> simp [h]

/-- The whole partition loop never touches the `anchors` field. -/
theorem foldl_partitionStep_anchors (tl : String) (d : ℚ) :
    ∀ (l : List Anchor) (s : PartitionState),
      (l.foldl (partitionStep tl d) s).anchors = s.anchors := by
  intro l
  induction l with
  | nil => intro s; rfl
  | cons a rest ih =>
      intro s
      simp only [List.foldl_cons]
      rw [ih, partitionStep_anchors]

/-- The whole partition loop never touches the `texts` field. -/
theorem foldl_partitionStep_texts (tl : String) (d : ℚ) :
    ∀ (l : List Anchor) (s : PartitionState),
      (l.foldl (partitionStep tl d) s).texts = s.texts := by
  intro l
  induction l with
  | nil => intro s; rfl
  | cons a rest ih =>
      intro s
      simp only [List.foldl_cons]
      rw [ih, partitionStep_texts]

/-- Spec-side expression of the per-anchor match: the text strings of the
detections whose Euclidean distance to `c` is at most `d`, written through
the squared distance (for `0 ≤ d`, real Euclidean `dist ≤ d` is exactly
`sqDist ≤ d * d`). -/
def matchedTexts (texts : List TextDetection) (c : Point) (d : ℚ) : List String :=
  (texts.filter (fun t => decide (sqDist t.centroid c ≤ d * d))).map TextDetection.text

/-- For a non-negative threshold, the loop's filter agrees with the spec-side
matched-text expression. -/
theorem textsWithin_eq_matchedTexts (texts : List TextDetection) (c : Point)
    {d : ℚ} (hd : 0 ≤ d) : textsWithin texts c d = matchedTexts texts c d := by
  unfold textsWithin matchedTexts withinDistance
  simp [hd]

/-- Accumulation of the `adjacent_text` field over the loop: what the fold
appends is exactly the per-anchor matches of the target-labelled anchors, in
anchor order. -/
theorem foldl_partitionStep_adjacent (tl : String) (d : ℚ) :
    ∀ (l : List Anchor) (s : PartitionState),
      (l.foldl (partitionStep tl d) s).adjacent_text
        = s.adjacent_text
          ++ (l.filter (fun a => a.predicted_label == tl)).flatMap
              (fun a => textsWithin s.texts a.centroid d) := by
  intro l
  induction l with
  | nil => intro s; simp
  | cons a rest ih =>
      intro s
      simp only [List.foldl_cons]
      rw [ih, partitionStep_texts]
      by_cases h : a.predicted_label == tl
      · simp [partitionStep, h, List.filter_cons, List.flatMap_cons,
          List.append_assoc]
      · simp [partitionStep, h, List.filter_cons]

/-- Accumulation of the `other_text` field over the loop. -/
theorem foldl_partitionStep_other (tl : String) (d : ℚ) :
    ∀ (l : List Anchor) (s : PartitionState),
      (l.foldl (partitionStep tl d) s).other_text
        = s.other_text
          ++ (l.filter (fun a => !(a.predicted_label == tl))).flatMap
              (fun a => textsWithin s.texts a.centroid d) := by
  intro l
  induction l with
  | nil => intro s; simp
  | cons a rest ih =>
      intro s
      simp only [List.foldl_cons]
      rw [ih, partitionStep_texts]
      by_cases h : a.predicted_label == tl
      · simp [partitionStep, h, List.filter_cons]
      · simp [partitionStep, h, List.filter_cons, List.flatMap_cons,
          List.append_assoc]

/-- Closed form of the first output list of the partition. -/
theorem partition_fst_eq (anchors : List Anchor) (texts : List TextDetection)
    (tl : String) {d : ℚ} (hd : 0 ≤ d) :
    (partition anchors texts tl d).1
      = (anchors.filter (fun a => a.predicted_label == tl)).flatMap
          (fun a => matchedTexts texts a.centroid d) := by
  show (List.foldl (partitionStep tl d)
      { anchors := anchors, texts := texts, adjacent_text := [], other_text := [] }
      anchors).adjacent_text = _
  rw [foldl_partitionStep_adjacent]
  simp only [List.nil_append]
  exact List.flatMap_congr (fun a _ => textsWithin_eq_matchedTexts texts a.centroid hd)

/-- Closed form of the second output list of the partition. -/
theorem partition_snd_eq (anchors : List Anchor) (texts : List TextDetection)
    (tl : String) {d : ℚ} (hd : 0 ≤ d) :
    (partition anchors texts tl d).2
      = (anchors.filter (fun a => !(a.predicted_label == tl))).flatMap
          (fun a => matchedTexts texts a.centroid d) := by
  show (List.foldl (partitionStep tl d)
      { anchors := anchors, texts := texts, adjacent_text := [], other_text := [] }
      anchors).other_text = _
  rw [foldl_partitionStep_other]
  simp only [List.nil_append]
  exact List.flatMap_congr (fun a _ => textsWithin_eq_matchedTexts texts a.centroid hd)

/-- Occurrences in a flattened list are the sum of per-block occurrences. -/
theorem count_flatMap {α : Type} (f : α → List String) (s : String) :
    ∀ l : List α, ((l.flatMap f).count s) = (l.map (fun a => (f a).count s)).sum := by
  intro l
  induction l with
  | nil => rfl
  | cons a rest ih => simp [List.flatMap_cons, List.count_append, ih]

/-- Occurrences of `s` among the matched texts of one anchor: one per
detection within range whose text is `s`. -/
theorem count_matchedTexts (texts : List TextDetection) (c : Point) (d : ℚ)
    (s : String) :
    (matchedTexts texts c d).count s
      = (texts.filter
          (fun t => decide (sqDist t.centroid c ≤ d * d) && t.text == s)).length := by
  unfold matchedTexts
  rw [List.count_eq_countP, List.countP_map, ← List.countP_eq_length_filter]
  rw [List.countP_filter]
  apply List.countP_congr
  intro t _
  simp [Function.comp, Bool.and_comm]

/-! ### Claim theorems (first batch) -/

/-- C1 (counterexample): on an empty labels list the notebook's table
construction does not raise: the probability dict comprehension iterates
zero times, so the division `v / sum(freq.values())` is never executed and
the result is silently the pair of empty tables. -/
theorem C1_empty_input_no_error_counterexample :
    build_tables_py [] = Except.ok ([], []) := rfl

/-- C1 (amended): for an empty labels list the builder raises no error and
returns an empty frequency table and an empty probability table. -/
theorem C1_empty_input_returns_empty_tables :
    build_tables_py [] = Except.ok ([], []) ∧ build_tables [] = ([], []) :=
  ⟨rfl, rfl⟩

/-- C8: for an empty anchors list, the partition returns both output lists
empty, for every texts list, target label and maximum distance. -/
theorem C8_empty_anchors_empty_outputs
    (texts : List TextDetection) (tl : String) (d : ℚ) :
    partition [] texts tl d = ([], []) := rfl

/-- C3: the partition appends, for each anchor, the text of every detection
within Euclidean distance `d` of the anchor's centroid to `adjacent_text`
when the anchor's predicted label equals the target label and to
`other_text` otherwise; detections beyond the threshold contribute
nothing. -/
theorem C3_partition_appends_by_label_and_distance
    (anchors : List Anchor) (texts : List TextDetection) (tl : String)
    (d : ℚ) (hd : 0 ≤ d) :
    (partition anchors texts tl d).1
      = (anchors.filter (fun a => a.predicted_label == tl)).flatMap
          (fun a => matchedTexts texts a.centroid d)
    ∧ (partition anchors texts tl d).2
      = (anchors.filter (fun a => !(a.predicted_label == tl))).flatMap
          (fun a => matchedTexts texts a.centroid d) :=
  ⟨partition_fst_eq anchors texts tl hd, partition_snd_eq anchors texts tl hd⟩

/-- Anchors and texts used in the concrete witness scenarios (the spec's
§8 scenario: one building anchor at the origin, a "Shop" detection 50 units
away and a "Farm" detection 200 units away). -/
def wAnchors : List Anchor := [⟨⟨0, 0⟩, "building"⟩]

/-- Text detections for the witness scenario. -/
def wTexts : List TextDetection := [⟨⟨50, 0⟩, "Shop"⟩, ⟨⟨200, 0⟩, "Farm"⟩]

/-- Witness for C3 at the spec's concrete scenario. -/
theorem C3_partition_appends_by_label_and_distance_witness :
    (0 : ℚ) ≤ 100
    ∧ ((partition wAnchors wTexts "building" 100).1
        = (wAnchors.filter (fun a => a.predicted_label == "building")).flatMap
            (fun a => matchedTexts wTexts a.centroid 100)
      ∧ (partition wAnchors wTexts "building" 100).2
        = (wAnchors.filter (fun a => !(a.predicted_label == "building"))).flatMap
            (fun a => matchedTexts wTexts a.centroid 100)) :=
  ⟨by decide,
   C3_partition_appends_by_label_and_distance wAnchors wTexts "building" 100 (by decide)⟩

/-- C4: the outputs are multisets of anchor-text matches with no
deduplication.  The number of occurrences of a string `s` in each output
list is the sum, over the anchors of that bucket, of the number of
detections within range carrying text `s`; in particular a detection in
range of both a target-labelled anchor and a differently labelled anchor
appears in both output lists. -/
theorem C4_no_deduplication
    (anchors : List Anchor) (texts : List TextDetection) (tl : String)
    (d : ℚ) (hd : 0 ≤ d) :
    (∀ s : String,
      (partition anchors texts tl d).1.count s
        = ((anchors.filter (fun a => a.predicted_label == tl)).map
            (fun a => (texts.filter
              (fun t => decide (sqDist t.centroid a.centroid ≤ d * d)
                && t.text == s)).length)).sum
      ∧ (partition anchors texts tl d).2.count s
        = ((anchors.filter (fun a => !(a.predicted_label == tl))).map
            (fun a => (texts.filter
              (fun t => decide (sqDist t.centroid a.centroid ≤ d * d)
                && t.text == s)).length)).sum)
    ∧ ∀ a1 a2 t, a1 ∈ anchors → a2 ∈ anchors → t ∈ texts →
        a1.predicted_label = tl → ¬ a2.predicted_label = tl →
        sqDist t.centroid a1.centroid ≤ d * d →
        sqDist t.centroid a2.centroid ≤ d * d →
        t.text ∈ (partition anchors texts tl d).1
        ∧ t.text ∈ (partition anchors texts tl d).2 := by
  constructor
  · intro s
    constructor
    · rw [partition_fst_eq anchors texts tl hd, count_flatMap]
      congr 1
      apply List.map_congr_left
      intro a _
      exact count_matchedTexts texts a.centroid d s
    · rw [partition_snd_eq anchors texts tl hd, count_flatMap]
      congr 1
      apply List.map_congr_left
      intro a _
      exact count_matchedTexts texts a.centroid d s
  · intro a1 a2 t h1 h2 ht hl1 hl2 hd1 hd2
    constructor
    · rw [partition_fst_eq anchors texts tl hd]
      rw [List.mem_flatMap]
      refine ⟨a1, List.mem_filter.mpr ⟨h1, by simp [hl1]⟩, ?_⟩
      unfold matchedTexts
      exact List.mem_map.mpr
        ⟨t, List.mem_filter.mpr ⟨ht, by simp [hd1]⟩, rfl⟩
    · rw [partition_snd_eq anchors texts tl hd]
      rw [List.mem_flatMap]
      refine ⟨a2, List.mem_filter.mpr ⟨h2, by simp [hl2]⟩, ?_⟩
      unfold matchedTexts
      exact List.mem_map.mpr
        ⟨t, List.mem_filter.mpr ⟨ht, by simp [hd2]⟩, rfl⟩

/-- Anchors for the C4 witness: one building anchor and one non-building
anchor, both close to the origin. -/
def wAnchors2 : List Anchor := [⟨⟨0, 0⟩, "building"⟩, ⟨⟨1, 0⟩, "nothing"⟩]

/-- A single detection within range of both witness anchors. -/
def wTexts2 : List TextDetection := [⟨⟨0, 0⟩, "Mill"⟩]

/-- Witness for C4 at a concrete input where one detection is in range of a
target anchor and of a non-target anchor. -/
theorem C4_no_deduplication_witness :
    (0 : ℚ) ≤ 5
    ∧ ((∀ s : String,
        (partition wAnchors2 wTexts2 "building" 5).1.count s
          = ((wAnchors2.filter (fun a => a.predicted_label == "building")).map
              (fun a => (wTexts2.filter
                (fun t => decide (sqDist t.centroid a.centroid ≤ 5 * 5)
                  && t.text == s)).length)).sum
        ∧ (partition wAnchors2 wTexts2 "building" 5).2.count s
          = ((wAnchors2.filter (fun a => !(a.predicted_label == "building"))).map
              (fun a => (wTexts2.filter
                (fun t => decide (sqDist t.centroid a.centroid ≤ 5 * 5)
                  && t.text == s)).length)).sum)
      ∧ ∀ a1 a2 t, a1 ∈ wAnchors2 → a2 ∈ wAnchors2 → t ∈ wTexts2 →
          a1.predicted_label = "building" → ¬ a2.predicted_label = "building" →
          sqDist t.centroid a1.centroid ≤ 5 * 5 →
          sqDist t.centroid a2.centroid ≤ 5 * 5 →
          t.text ∈ (partition wAnchors2 wTexts2 "building" 5).1
          ∧ t.text ∈ (partition wAnchors2 wTexts2 "building" 5).2) :=
  ⟨by decide, C4_no_deduplication wAnchors2 wTexts2 "building" 5 (by decide)⟩

/-- A rank step never touches the `prob_a` field. -/
theorem rankStep_prob_a (s : RankState) (kv : String × ℚ) :
    (rankStep s kv).prob_a = s.prob_a := rfl

/-- A rank step never touches the `prob_b` field. -/
theorem rankStep_prob_b (s : RankState) (kv : String × ℚ) :
    (rankStep s kv).prob_b = s.prob_b := rfl

/-- The whole comprehension never touches the `prob_a` field. -/
theorem foldl_rankStep_prob_a :
    ∀ (l : List (String × ℚ)) (s : RankState),
      (l.foldl rankStep s).prob_a = s.prob_a := by
  intro l
  induction l with
  | nil => intro s; rfl
  | cons kv rest ih => intro s; simp only [List.foldl_cons]; rw [ih]; rfl

/-- The whole comprehension never touches the `prob_b` field. -/
theorem foldl_rankStep_prob_b :
    ∀ (l : List (String × ℚ)) (s : RankState),
      (l.foldl rankStep s).prob_b = s.prob_b := by
  intro l
  induction l with
  | nil => intro s; rfl
  | cons kv rest ih => intro s; simp only [List.foldl_cons]; rw [ih]; rfl

/-! ### Helper lemmas about the counter -/

/-- Bumping a key increments its looked-up count. -/
theorem lookupNat_bump_self (m : List (String × Nat)) (k : String) :
    lookupNat (bump m k) k = lookupNat m k + 1 := by
  induction m with
  | nil => simp [bump, lookupNat]
  | cons kv rest ih =>
      by_cases h : kv.1 == k
      · simp [bump, h, lookupNat]
      · simp [bump, h, lookupNat, ih]

/-- Bumping a key leaves every other looked-up count unchanged. -/
theorem lookupNat_bump_ne (m : List (String × Nat)) {a k : String}
    (h : (a == k) = false) : lookupNat (bump m a) k = lookupNat m k := by
  induction m with
  | nil => simp [bump, lookupNat, h]
  | cons kv rest ih =>
      by_cases hk : kv.1 == a
      · have hk1 : kv.1 = a := by simpa using hk
        subst hk1
        simp [bump, lookupNat, h]
      · simp only [bump, hk, if_false]
        by_cases hkk : kv.1 == k
        · simp [lookupNat, hkk]
        · simp [lookupNat, hkk, ih]

/-- The counter fold adds the number of occurrences of each key. -/
theorem lookupNat_foldl_bump :
    ∀ (l : List String) (m : List (String × Nat)) (k : String),
      lookupNat (l.foldl bump m) k = lookupNat m k + l.count k := by
  intro l
  induction l with
  | nil => intro m k; simp
  | cons a rest ih =>
      intro m k
      simp only [List.foldl_cons, List.count_cons]
      rw [ih]
      by_cases h : a == k
      · have ha : a = k := by simpa using h
        subst ha
        rw [lookupNat_bump_self]
        simp [h]
        omega
      · rw [lookupNat_bump_ne m (by simpa using h)]
        simp [h]

/-- Python's `Counter` counts exactly: the looked-up count of `k` is the
number of occurrences of `k` in the input list. -/
theorem lookupNat_counter (l : List String) (k : String) :
    lookupNat (counter l) k = l.count k := by
  unfold counter
  rw [lookupNat_foldl_bump]
  simp [lookupNat]

/-- Counting over a mapped list is counting preimages. -/
theorem count_map_strLower (l : List String) (k : String) :
    (l.map strLower).count k = (l.filter (fun s => strLower s == k)).length := by
  rw [List.count_eq_countP, List.countP_map, ← List.countP_eq_length_filter]
  rfl

/-- Bumping adds one to the total count. -/
theorem totalCount_bump :
    ∀ (m : List (String × Nat)) (k : String),
      totalCount (bump m k) = totalCount m + 1 := by
  intro m
  induction m with
  | nil => intro k; rfl
  | cons kv rest ih =>
      intro k
      by_cases h : kv.1 == k
      · simp only [bump, h, if_true, totalCount, List.map_cons, List.sum_cons]
        omega
      · simp only [bump, h, Bool.false_eq_true, if_false, totalCount,
          List.map_cons, List.sum_cons]
        have hr := ih k
        simp only [totalCount] at hr
        omega

/-- The total count after the counter fold is the input length plus the
initial total. -/
theorem totalCount_foldl_bump :
    ∀ (l : List String) (m : List (String × Nat)),
      totalCount (l.foldl bump m) = totalCount m + l.length := by
  intro l
  induction l with
  | nil => intro m; simp
  | cons a rest ih =>
      intro m
      simp only [List.foldl_cons, List.length_cons]
      rw [ih, totalCount_bump]
      omega

/-- The total count of a counter is the length of the counted list. -/
theorem totalCount_counter (l : List String) :
    totalCount (counter l) = l.length := by
  unfold counter
  rw [totalCount_foldl_bump]
  simp [totalCount]

/-- Bumping preserves positivity of all stored counts. -/
theorem bump_values_pos :
    ∀ (m : List (String × Nat)) (k : String),
      (∀ kv ∈ m, 1 ≤ kv.2) → ∀ kv ∈ bump m k, 1 ≤ kv.2 := by
  intro m
  induction m with
  | nil =>
      intro k _ kv hkv
      simp [bump] at hkv
      rw [hkv]
  | cons kv0 rest ih =>
      intro k h kv hkv
      by_cases hk : kv0.1 == k
      · simp only [bump, hk, if_true, List.mem_cons] at hkv
        rcases hkv with h1 | h2
        · rw [h1]
          have h0 := h kv0 (List.mem_cons_self _ _)
          exact Nat.le_succ_of_le h0
        · exact h kv (List.mem_cons_of_mem _ h2)
      · simp only [bump, hk, Bool.false_eq_true, if_false, List.mem_cons] at hkv
        rcases hkv with h1 | h2
        · rw [h1]
          exact h kv0 (List.mem_cons_self _ _)
        · exact ih k (fun kv2 hkv2 => h kv2 (List.mem_cons_of_mem _ hkv2)) kv h2

/-- All counts produced by the counter fold are positive. -/
theorem foldl_bump_values_pos :
    ∀ (l : List String) (m : List (String × Nat)),
      (∀ kv ∈ m, 1 ≤ kv.2) → ∀ kv ∈ l.foldl bump m, 1 ≤ kv.2 := by
  intro l
  induction l with
  | nil => intro m h; exact h
  | cons a rest ih =>
      intro m h
      simp only [List.foldl_cons]
      exact ih (bump m a) (bump_values_pos m a h)

/-- Every count stored by `counter` is at least 1. -/
theorem counter_values_pos (l : List String) :
    ∀ kv ∈ counter l, 1 ≤ kv.2 :=
  foldl_bump_values_pos l [] (by intro kv h; cases h)

/-- Bumping a key already present leaves the key sequence unchanged. -/
theorem bump_keys_mem {m : List (String × Nat)} {k : String}
    (h : k ∈ m.map Prod.fst) : (bump m k).map Prod.fst = m.map Prod.fst := by
  induction m with
  | nil => cases h
  | cons kv rest ih =>
      by_cases hk : kv.1 == k
      · simp [bump, hk]
      · have hk1 : ¬ kv.1 = k := by simpa using hk
        simp only [List.map_cons, List.mem_cons] at h
        rcases h with h1 | h2
        · exact absurd h1.symm hk1
        · simp [bump, hk, ih h2]

/-- Bumping a new key appends it to the key sequence. -/
theorem bump_keys_not_mem {m : List (String × Nat)} {k : String}
    (h : ¬ k ∈ m.map Prod.fst) :
    (bump m k).map Prod.fst = m.map Prod.fst ++ [k] := by
  induction m with
  | nil => rfl
  | cons kv rest ih =>
      simp only [List.map_cons, List.mem_cons] at h
      push_neg at h
      have hk : (kv.1 == k) = false := by
        simp [beq_iff_eq]
        exact fun hh => h.1 hh.symm
      simp [bump, hk, ih h.2]

/-- The counter fold preserves distinctness of keys. -/
theorem foldl_bump_keys_nodup :
    ∀ (l : List String) (m : List (String × Nat)),
      (m.map Prod.fst).Nodup → ((l.foldl bump m).map Prod.fst).Nodup := by
  intro l
  induction l with
  | nil => intro m h; exact h
  | cons a rest ih =>
      intro m h
      simp only [List.foldl_cons]
      apply ih
      by_cases hm : a ∈ m.map Prod.fst
      · rw [bump_keys_mem hm]; exact h
      · rw [bump_keys_not_mem hm]
        simp [List.nodup_append, h, hm]

/-- A counter's keys are distinct: it is a genuine dictionary. -/
theorem counter_keys_nodup (l : List String) :
    ((counter l).map Prod.fst).Nodup :=
  foldl_bump_keys_nodup l [] List.nodup_nil

/-- With distinct keys, looking up the key of a stored entry returns its
stored value. -/
theorem lookupNat_eq_of_mem :
    ∀ {m : List (String × Nat)},
      (m.map Prod.fst).Nodup → ∀ {kv : String × Nat}, kv ∈ m →
        lookupNat m kv.1 = kv.2 := by
  intro m
  induction m with
  | nil => intro _ kv h; cases h
  | cons kv0 rest ih =>
      intro hnd kv hmem
      simp only [List.map_cons, List.nodup_cons] at hnd
      rcases List.mem_cons.mp hmem with h1 | h2
      · rw [h1]
        simp [lookupNat]
      · have hk : ¬ kv0.1 = kv.1 := by
          intro hh
          exact hnd.1 (hh ▸ (List.mem_map.mpr ⟨kv, h2, rfl⟩))
        simp only [lookupNat, beq_iff_eq, hk, if_false]
        exact ih hnd.2 h2

/-- Every entry added during the counter fold has a key from the initial
table or from the counted list. -/
theorem foldl_bump_keys_from :
    ∀ (l : List String) (m : List (String × Nat)) (kv : String × Nat),
      kv ∈ l.foldl bump m → kv.1 ∈ m.map Prod.fst ∨ kv.1 ∈ l := by
  intro l
  induction l with
  | nil =>
      intro m kv h
      exact Or.inl (List.mem_map.mpr ⟨kv, h, rfl⟩)
  | cons a rest ih =>
      intro m kv h
      simp only [List.foldl_cons] at h
      rcases ih (bump m a) kv h with h1 | h2
      · by_cases hm : a ∈ m.map Prod.fst
        · rw [bump_keys_mem hm] at h1
          exact Or.inl h1
        · rw [bump_keys_not_mem hm] at h1
          rcases List.mem_append.mp h1 with h3 | h4
          · exact Or.inl h3
          · simp at h4
            exact Or.inr (h4 ▸ List.mem_cons_self _ _)
      · exact Or.inr (List.mem_cons_of_mem _ h2)

/-- Every key of a counter occurs in the counted list. -/
theorem counter_keys_from (l : List String) (kv : String × Nat)
    (h : kv ∈ counter l) : kv.1 ∈ l := by
  rcases foldl_bump_keys_from l [] kv h with h1 | h2
  · cases h1
  · exact h2

/-- Dividing every element of a list by a constant divides the sum. -/
theorem sum_map_div (l : List ℚ) (t : ℚ) :
    (l.map (fun x => x / t)).sum = l.sum / t := by
  induction l with
  | nil => simp
  | cons x rest ih => simp [ih, add_div]

/-! ### Claim theorems (counting and tables) -/

/-- C6: the frequency table counts case-insensitively.  The count stored
for `k` is the number of labels whose lowercasing is `k`, every key of the
table is the lowercasing of some label, and the spec's scenario holds
concretely. -/
theorem C6_case_insensitive_counting (labels : List String) (k : String) :
    lookupNat (build_tables labels).1 k
      = (labels.filter (fun s => strLower s == k)).length
    ∧ (∀ kv ∈ (build_tables labels).1, kv.1 ∈ labels.map strLower)
    ∧ (build_tables ["Street", "street", "LANE"]).1
      = [("street", 2), ("lane", 1)] := by
  refine ⟨?_, ?_, ?_⟩
  · show lookupNat (counter (labels.map strLower)) k = _
    rw [lookupNat_counter, count_map_strLower]
  · intro kv hkv
    exact counter_keys_from (labels.map strLower) kv hkv
  · simp [build_tables, counter, bump, strLower, totalCount]

/-- The values of a probability table built by dividing each count by a
non-zero total sum to 1. -/
theorem prob_snd_sum (freq : List (String × Nat))
    (h : (totalCount freq : ℚ) ≠ 0) :
    ((freq.map (fun kv => (kv.1, (kv.2 : ℚ) / (totalCount freq : ℚ)))).map
      Prod.snd).sum = 1 := by
  rw [List.map_map]
  have h1 : (Prod.snd ∘ fun kv : String × Nat =>
      (kv.1, (kv.2 : ℚ) / (totalCount freq : ℚ)))
      = (fun x : ℚ => x / (totalCount freq : ℚ))
          ∘ (fun kv : String × Nat => (kv.2 : ℚ)) := rfl
  rw [h1, ← List.map_map, sum_map_div]
  have h2 : (freq.map (fun kv : String × Nat => (kv.2 : ℚ)))
      = (freq.map Prod.snd).map (Nat.cast : Nat → ℚ) := by
    rw [List.map_map]
    rfl
  rw [h2, ← Nat.cast_list_sum]
  exact div_self h

/-- C7: for every non-empty labels list, each probability is the
corresponding frequency divided by the total count, and the probabilities
sum to exactly 1. -/
theorem C7_probabilities_normalize (labels : List String)
    (hne : labels ≠ []) :
    ((build_tables labels).2.map Prod.snd).sum = 1
    ∧ ∀ kv ∈ (build_tables labels).2,
        kv.2 = (lookupNat (build_tables labels).1 kv.1 : ℚ)
                / (totalCount (build_tables labels).1 : ℚ) := by
  have hlen : labels.length ≠ 0 := fun h0 => hne (List.length_eq_zero.mp h0)
  have htotQ : ((totalCount (counter (labels.map strLower)) : ℚ)) ≠ 0 := by
    rw [totalCount_counter, List.length_map]
    exact Nat.cast_ne_zero.mpr hlen
  constructor
  · exact prob_snd_sum (counter (labels.map strLower)) htotQ
  · intro kv hkv
    have hkv2 : kv ∈ (counter (labels.map strLower)).map
        (fun kv0 => (kv0.1, (kv0.2 : ℚ)
          / (totalCount (counter (labels.map strLower)) : ℚ))) := hkv
    rcases List.mem_map.mp hkv2 with ⟨kv0, hkv0, hkveq⟩
    have hl : lookupNat (counter (labels.map strLower)) kv0.1 = kv0.2 :=
      lookupNat_eq_of_mem (counter_keys_nodup _) hkv0
    show kv.2 = (lookupNat (counter (labels.map strLower)) kv.1 : ℚ)
        / (totalCount (counter (labels.map strLower)) : ℚ)
    rw [← hkveq]
    show (kv0.2 : ℚ) / _
        = (lookupNat (counter (labels.map strLower)) kv0.1 : ℚ) / _
    rw [hl]

/-- Witness for C7 at the spec's scenario labels. -/
theorem C7_probabilities_normalize_witness :
    (["Street", "street", "LANE"] : List String) ≠ []
    ∧ (((build_tables ["Street", "street", "LANE"]).2.map Prod.snd).sum = 1
      ∧ ∀ kv ∈ (build_tables ["Street", "street", "LANE"]).2,
          kv.2 = (lookupNat (build_tables ["Street", "street", "LANE"]).1 kv.1 : ℚ)
                  / (totalCount (build_tables ["Street", "street", "LANE"]).1 : ℚ)) :=
  ⟨by decide, C7_probabilities_normalize ["Street", "street", "LANE"] (by decide)⟩

/-- C10: for a non-empty labels list the frequency and probability tables
have the same key sequence, every frequency is at least 1 and every
probability lies in the half-open interval (0, 1]. -/
theorem C10_table_invariants (labels : List String) (_hne : labels ≠ []) :
    (build_tables labels).2.map Prod.fst = (build_tables labels).1.map Prod.fst
    ∧ (∀ kv ∈ (build_tables labels).1, 1 ≤ kv.2)
    ∧ ∀ kv ∈ (build_tables labels).2, 0 < kv.2 ∧ kv.2 ≤ 1 := by
  refine ⟨?_, ?_, ?_⟩
  · show ((counter (labels.map strLower)).map
        (fun kv0 => (kv0.1, (kv0.2 : ℚ)
          / (totalCount (counter (labels.map strLower)) : ℚ)))).map Prod.fst
      = (counter (labels.map strLower)).map Prod.fst
    rw [List.map_map]
    rfl
  · intro kv hkv
    exact counter_values_pos _ kv hkv
  · intro kv hkv
    have hkv2 : kv ∈ (counter (labels.map strLower)).map
        (fun kv0 => (kv0.1, (kv0.2 : ℚ)
          / (totalCount (counter (labels.map strLower)) : ℚ))) := hkv
    rcases List.mem_map.mp hkv2 with ⟨kv0, hkv0, hkveq⟩
    have h1 : 1 ≤ kv0.2 := counter_values_pos _ kv0 hkv0
    have h2 : kv0.2 ≤ totalCount (counter (labels.map strLower)) := by
      show kv0.2 ≤ ((counter (labels.map strLower)).map Prod.snd).sum
      apply List.single_le_sum (fun x _ => Nat.zero_le x)
      exact List.mem_map.mpr ⟨kv0, hkv0, rfl⟩
    have hTQ : (0 : ℚ) < (totalCount (counter (labels.map strLower)) : ℚ) := by
      exact_mod_cast lt_of_lt_of_le h1 h2
    rw [← hkveq]
    constructor
    · show (0 : ℚ) < (kv0.2 : ℚ)
        / (totalCount (counter (labels.map strLower)) : ℚ)
      apply div_pos _ hTQ
      exact_mod_cast h1
    · show (kv0.2 : ℚ)
        / (totalCount (counter (labels.map strLower)) : ℚ) ≤ 1
      rw [div_le_one hTQ]
      exact_mod_cast h2

/-- Witness for C10 at a concrete two-label input. -/
theorem C10_table_invariants_witness :
    (["LANE", "lane"] : List String) ≠ []
    ∧ ((build_tables ["LANE", "lane"]).2.map Prod.fst
        = (build_tables ["LANE", "lane"]).1.map Prod.fst
      ∧ (∀ kv ∈ (build_tables ["LANE", "lane"]).1, 1 ≤ kv.2)
      ∧ ∀ kv ∈ (build_tables ["LANE", "lane"]).2, 0 < kv.2 ∧ kv.2 ≤ 1) :=
  ⟨by decide, C10_table_invariants ["LANE", "lane"] (by decide)⟩

/-! ### Helper lemmas about the ranking -/

/-- The diffs accumulated by the comprehension are the entries of `prob_b`
mapped to their signed probability difference, in `prob_b`'s key order. -/
theorem foldl_rankStep_diffs :
    ∀ (l : List (String × ℚ)) (s : RankState),
      (l.foldl rankStep s).diffs
        = s.diffs ++ l.map (fun kv =>
            (kv.1, lookupProb s.prob_a kv.1 - lookupProb s.prob_b kv.1)) := by
  intro l
  induction l with
  | nil => intro s; simp
  | cons kv rest ih =>
      intro s
      simp only [List.foldl_cons]
      rw [ih]
      simp [rankStep, List.append_assoc]

/-- Closed form of the comprehension's diff list. -/
theorem runRankDiffs_diffs (prob_a prob_b : List (String × ℚ)) :
    (runRankDiffs prob_a prob_b).diffs
      = prob_b.map (fun kv =>
          (kv.1, lookupProb prob_a kv.1 - lookupProb prob_b kv.1)) := by
  unfold runRankDiffs
  rw [foldl_rankStep_diffs]
  simp

/-- Inserting an entry is a permutation of consing it. -/
theorem insertTerm_perm (p : String × ℚ) :
    ∀ l : List (String × ℚ), (insertTerm p l).Perm (p :: l) := by
  intro l
  induction l with
  | nil => exact List.Perm.refl _
  | cons q rest ih =>
      by_cases h : p.2 < q.2
      · simp only [insertTerm, h, if_true]
        exact (ih.cons q).trans (List.Perm.swap p q rest)
      · simp only [insertTerm, h, if_false]
        exact List.Perm.refl _

/-- Sorting is a permutation. -/
theorem sortDesc_perm : ∀ l : List (String × ℚ), (sortDesc l).Perm l := by
  intro l
  induction l with
  | nil => exact List.Perm.refl _
  | cons p rest ih => exact (insertTerm_perm p (sortDesc rest)).trans (ih.cons p)

/-- Inserting into a descending list keeps it descending. -/
theorem pairwise_insertTerm (p : String × ℚ) :
    ∀ l : List (String × ℚ), l.Pairwise (fun x y => y.2 ≤ x.2) →
      (insertTerm p l).Pairwise (fun x y => y.2 ≤ x.2) := by
  intro l
  induction l with
  | nil => intro _; simp [insertTerm]
  | cons q rest ih =>
      intro hl
      rcases List.pairwise_cons.mp hl with ⟨hq, hrest⟩
      by_cases h : p.2 < q.2
      · simp only [insertTerm, h, if_true]
        apply List.pairwise_cons.mpr
        refine ⟨?_, ih hrest⟩
        intro x hx
        rcases List.mem_cons.mp ((insertTerm_perm p rest).mem_iff.mp hx) with h1 | h2
        · rw [h1]; exact le_of_lt h
        · exact hq x h2
      · push_neg at h
        simp only [insertTerm, not_lt.mpr h, if_false]
        apply List.pairwise_cons.mpr
        refine ⟨?_, hl⟩
        intro x hx
        rcases List.mem_cons.mp hx with h1 | h2
        · rw [h1]; exact h
        · exact le_trans (hq x h2) h

/-- A sorted list is descending in its value component. -/
theorem sortDesc_sorted :
    ∀ l : List (String × ℚ), (sortDesc l).Pairwise (fun x y => y.2 ≤ x.2) := by
  intro l
  induction l with
  | nil => simp [sortDesc]
  | cons p rest ih => exact pairwise_insertTerm p (sortDesc rest) ih

/-- Stability of the insertion, phrased through filtering one value class:
inserting an entry puts it before exactly the later-arriving entries of its
own value class. -/
theorem filter_insertTerm (p : String × ℚ) (v : ℚ) :
    ∀ l : List (String × ℚ),
      (insertTerm p l).filter (fun x => decide (x.2 = v))
        = ((p :: l).filter (fun x => decide (x.2 = v))) := by
  intro l
  induction l with
  | nil => rfl
  | cons q rest ih =>
      by_cases h : p.2 < q.2
      · simp only [insertTerm, h, if_true]
        by_cases hp : p.2 = v
        · by_cases hq : q.2 = v
          · exact absurd h (by rw [hp, hq]; exact lt_irrefl v)
          · simp [List.filter_cons, hp, hq, ih]
        · simp [List.filter_cons, hp, ih]
      · simp only [insertTerm, h, if_false]

/-- Stability of the whole sort: within each value class, the sorted output
preserves the input order. -/
theorem sortDesc_filter (v : ℚ) :
    ∀ l : List (String × ℚ),
      (sortDesc l).filter (fun x => decide (x.2 = v))
        = l.filter (fun x => decide (x.2 = v)) := by
  intro l
  induction l with
  | nil => rfl
  | cons p rest ih =>
      show (insertTerm p (sortDesc rest)).filter _ = _
      rw [filter_insertTerm]
      simp only [List.filter_cons]
      rw [ih]

/-- The ranking permutes the diff list of `prob_b`'s entries. -/
theorem rank_difference_perm (prob_a prob_b : List (String × ℚ)) :
    (rank_difference prob_a prob_b).Perm
      (prob_b.map (fun kv =>
        (kv.1, lookupProb prob_a kv.1 - lookupProb prob_b kv.1))) := by
  unfold rank_difference
  rw [runRankDiffs_diffs]
  exact sortDesc_perm _

/-! ### Claim theorems (ranking) -/

/-- C2: the ranking's keys are exactly the distinct keys of `prob_b`, once
each; no key present only in `prob_a` ever appears. -/
theorem C2_rank_keys (prob_a prob_b : List (String × ℚ))
    (hb : (prob_b.map Prod.fst).Nodup) :
    ((rank_difference prob_a prob_b).map Prod.fst).Perm (prob_b.map Prod.fst)
    ∧ ((rank_difference prob_a prob_b).map Prod.fst).Nodup
    ∧ (rank_difference prob_a prob_b).length = prob_b.length
    ∧ ∀ w, w ∈ (rank_difference prob_a prob_b).map Prod.fst →
        w ∈ prob_b.map Prod.fst := by
  have h2 : (prob_b.map (fun kv =>
      (kv.1, lookupProb prob_a kv.1 - lookupProb prob_b kv.1))).map Prod.fst
      = prob_b.map Prod.fst := by
    rw [List.map_map]
    rfl
  have hkeys : ((rank_difference prob_a prob_b).map Prod.fst).Perm
      (prob_b.map Prod.fst) :=
    h2 ▸ (rank_difference_perm prob_a prob_b).map Prod.fst
  refine ⟨hkeys, hkeys.nodup_iff.mpr hb, ?_, fun w hw => hkeys.mem_iff.mp hw⟩
  have hlen := (rank_difference_perm prob_a prob_b).length_eq
  rw [List.length_map] at hlen
  exact hlen

/-- Witness for C2 at concrete two-key tables. -/
theorem C2_rank_keys_witness :
    (([("pear", 0.1), ("plum", 0.2)].map
        (Prod.fst (α := String) (β := ℚ))).Nodup)
    ∧ (((rank_difference [("apple", 0.3)] [("pear", 0.1), ("plum", 0.2)]).map
          Prod.fst).Perm ([("pear", 0.1), ("plum", 0.2)].map Prod.fst)
      ∧ ((rank_difference [("apple", 0.3)] [("pear", 0.1), ("plum", 0.2)]).map
          Prod.fst).Nodup
      ∧ (rank_difference [("apple", 0.3)] [("pear", 0.1), ("plum", 0.2)]).length
          = [(("pear" : String), (0.1 : ℚ)), ("plum", 0.2)].length
      ∧ ∀ w, w ∈ (rank_difference [("apple", 0.3)]
            [("pear", 0.1), ("plum", 0.2)]).map Prod.fst →
          w ∈ [(("pear" : String), (0.1 : ℚ)), ("plum", 0.2)].map Prod.fst) :=
  ⟨by simp, C2_rank_keys [("apple", 0.3)] [("pear", 0.1), ("plum", 0.2)] (by simp)⟩

/-- C5: each ranking entry for key `w` carries
`prob_a.get(w, 0) - prob_b.get(w, 0)`; the ranking is sorted descending by
value; ties keep `prob_b`'s original iteration order (stable sort); and the
spec's concrete scenario evaluates as stated. -/
theorem C5_rank_values_sorted_stable (prob_a prob_b : List (String × ℚ)) :
    (∀ p ∈ rank_difference prob_a prob_b,
      p.2 = lookupProb prob_a p.1 - lookupProb prob_b p.1)
    ∧ (rank_difference prob_a prob_b).Pairwise (fun p q => q.2 ≤ p.2)
    ∧ (∀ v : ℚ, (rank_difference prob_a prob_b).filter
          (fun p => decide (p.2 = v))
        = (prob_b.map (fun kv =>
            (kv.1, lookupProb prob_a kv.1 - lookupProb prob_b kv.1))).filter
              (fun p => decide (p.2 = v)))
    ∧ rank_difference [("street", 0.5)] [("street", 0.2), ("lane", 0.1)]
        = [("street", 0.3), ("lane", -0.1)] := by
  refine ⟨?_, ?_, ?_, ?_⟩
  · intro p hp
    have hp2 := (rank_difference_perm prob_a prob_b).mem_iff.mp hp
    rcases List.mem_map.mp hp2 with ⟨kv, _, hkv⟩
    rw [← hkv]
  · show (sortDesc (runRankDiffs prob_a prob_b).diffs).Pairwise _
    exact sortDesc_sorted _
  · intro v
    show (sortDesc (runRankDiffs prob_a prob_b).diffs).filter _ = _
    rw [sortDesc_filter, runRankDiffs_diffs]
  · simp [rank_difference, runRankDiffs, rankStep, lookupProb, sortDesc,
      insertTerm]
    norm_num

/-- C9: neither routine mutates its inputs.  The partition loop, modelled as
explicit state passing, leaves the `anchors` and `texts` collections of the
state unchanged, and the ranking comprehension leaves the `prob_a` and
`prob_b` tables of its state unchanged; the only effect of each is its
accumulated output. -/
theorem C9_no_input_mutation
    (anchors : List Anchor) (texts : List TextDetection) (tl : String)
    (d : ℚ) (prob_a prob_b : List (String × ℚ)) :
    (runPartition anchors texts tl d).anchors = anchors
    ∧ (runPartition anchors texts tl d).texts = texts
    ∧ (runRankDiffs prob_a prob_b).prob_a = prob_a
    ∧ (runRankDiffs prob_a prob_b).prob_b = prob_b :=
  ⟨foldl_partitionStep_anchors tl d anchors _,
   foldl_partitionStep_texts tl d anchors _,
   foldl_rankStep_prob_a prob_b _,
   foldl_rankStep_prob_b prob_b _⟩
